import Mathlib

/-!
Shallow embedding of the transformation pipeline of `backend/services/transformer.py`
(together with `backend/services/vocabulary.py`, `backend/models/job.py` and
`backend/routers/transform.py`), and proofs about it.

Modelling conventions:
- Python strings are Lean `String`; Python `str.split()` / `str.strip()` / joins are
  re-implemented below over `List Char`.
- IEEE doubles used by the segment planner are modelled as exact rationals (`ℚ`).
- Arbitrary JSON-like Python values are the inductive type `PyVal`; code paths on
  which Python raises an exception are modelled with `Option` / `Except`.
-/

namespace GradientReading

/-- Helper for Python `str.split()`: split a character list into the maximal runs of
non-whitespace characters, dropping all whitespace.  `acc` is the reversed current run. -/
def wordsAux : List Char → List Char → List (List Char)
  | [], acc => if acc.isEmpty then [] else [acc.reverse]
  | c :: cs, acc =>
    if c.isWhitespace then
      if acc.isEmpty then wordsAux cs [] else acc.reverse :: wordsAux cs []
    else
      wordsAux cs (c :: acc)

/-- Python `text.split()`: whitespace-separated words with empties dropped. -/
def pyWords (s : String) : List String :=
  (wordsAux s.data []).map List.asString

/-- The function `_word_count` of transformer.py: `len(text.split())`. -/
def word_count (s : String) : Nat := (pyWords s).length

/-- Python `sep.join(l)`. -/
def pyJoin (sep : String) : List String → String
  | [] => ""
  | [s] => s
  | s :: rest => s ++ sep ++ pyJoin sep rest

theorem wordsAux_append_ws (c : Char) (hc : c.isWhitespace = true) (ys : List Char) :
    ∀ (xs acc : List Char), wordsAux (xs ++ c :: ys) acc = wordsAux xs acc ++ wordsAux ys [] := by
  intro xs
  induction xs with
  | nil =>
    intro acc
    by_cases h : acc.isEmpty <;> simp [wordsAux, hc, h]
  | cons x xs ih =>
    intro acc
    by_cases hx : x.isWhitespace <;> by_cases h : acc.isEmpty <;>
      simp [wordsAux, hx, h, ih]

/-- Splitting words commutes with appending a single whitespace character in between. -/
theorem word_count_append_ws (a b : String) (c : Char) (hc : c.isWhitespace = true) :
    word_count (a ++ ⟨[c]⟩ ++ b) = word_count a + word_count b := by
  have hdata : (a ++ (⟨[c]⟩ : String) ++ b).data = a.data ++ c :: b.data := by
    simp [String.data_append]
  simp [word_count, pyWords, hdata, wordsAux_append_ws c hc b.data a.data]

theorem word_count_append_space (a b : String) :
    word_count (a ++ " " ++ b) = word_count a + word_count b :=
  word_count_append_ws a b ' ' rfl

/-- Word count of a space-join is the sum of the word counts. -/
theorem word_count_pyJoin_space (l : List String) :
    word_count (pyJoin " " l) = (l.map word_count).sum := by
  induction l with
  | nil => simp [pyJoin, word_count, pyWords, wordsAux]
  | cons s rest ih =>
    cases rest with
    | nil => simp [pyJoin]
    | cons t ts =>
      have : pyJoin " " (s :: t :: ts) = s ++ " " ++ pyJoin " " (t :: ts) := rfl
      rw [this, word_count_append_space, ih]
      simp

theorem mem_wordsAux_spec :
    ∀ (cs acc : List Char), (∀ c ∈ acc, c.isWhitespace = false) →
      ∀ w ∈ wordsAux cs acc, w ≠ [] ∧ ∀ c ∈ w, c.isWhitespace = false := by
  intro cs
  induction cs with
  | nil =>
    intro acc hacc w hw
    by_cases h : acc.isEmpty <;> simp [wordsAux, h] at hw
    subst hw
    refine ⟨by simpa using fun h2 => by simp [h2] at h, ?_⟩
    intro c hc
    exact hacc c (by simpa using hc)
  | cons c cs ih =>
    intro acc hacc w hw
    by_cases hc : c.isWhitespace
    · by_cases h : acc.isEmpty
      · simp [wordsAux, hc, h] at hw
        exact ih [] (by simp) w hw
      · simp [wordsAux, hc, h] at hw
        rcases hw with hw | hw
        · subst hw
          refine ⟨by simpa using fun h2 => by simp [h2] at h, ?_⟩
          intro x hx
          exact hacc x (by simpa using hx)
        · exact ih [] (by simp) w hw
    · simp [wordsAux, hc] at hw
      refine ih (c :: acc) ?_ w hw
      intro x hx
      rcases List.mem_cons.mp hx with h1 | h1
      · subst h1; simpa using hc
      · exact hacc x h1

theorem wordsAux_of_no_ws :
    ∀ (cs acc : List Char), (∀ c ∈ cs, c.isWhitespace = false) →
      wordsAux cs acc =
        if acc.isEmpty ∧ cs.isEmpty then [] else [acc.reverse ++ cs] := by
  intro cs
  induction cs with
  | nil => intro acc _; by_cases h : acc.isEmpty <;> simp [wordsAux, h]
  | cons c cs ih =>
    intro acc hcs
    have hc : c.isWhitespace = false := hcs c (by simp)
    have := ih (c :: acc) (fun x hx => hcs x (by simp [hx]))
    simp [wordsAux, hc, this]

/-- A nonempty whitespace-free string is a single word. -/
theorem word_count_eq_one (w : String) (hne : w.data ≠ [])
    (hw : ∀ c ∈ w.data, c.isWhitespace = false) : word_count w = 1 := by
  simp [word_count, pyWords, wordsAux_of_no_ws w.data [] hw, hne]

/-- Every element of `pyWords s` is a nonempty whitespace-free string, hence one word. -/
theorem word_count_of_mem_pyWords (s w : String) (hw : w ∈ pyWords s) :
    word_count w = 1 ∧ w ≠ "" := by
  rcases List.mem_map.mp hw with ⟨cs, hcs, rfl⟩
  have hspec := mem_wordsAux_spec s.data [] (by simp) cs hcs
  have hdata : (List.asString cs).data = cs := rfl
  refine ⟨word_count_eq_one _ (by simpa [hdata] using hspec.1)
    (by simpa [hdata] using hspec.2), ?_⟩
  intro h
  have : cs = [] := by
    have := congrArg String.data h
    simpa [hdata] using this
  exact hspec.1 this

/-! ### Chunk batching (`_chunk_paragraphs`) -/

/-- MAX_CHUNK_WORDS in transformer.py: target size for model call chunks. -/
def MAX_CHUNK_WORDS : Nat := 250

/-- MAX_CALL_WORDS in transformer.py: safety cap for a single model call. -/
def MAX_CALL_WORDS : Nat := 900

/-- CONTEXT_TAIL_WORDS in transformer.py. -/
def CONTEXT_TAIL_WORDS : Nat := 140

/-- Loop of `_chunk_paragraphs`; `cur`/`curWords` mirror `current_chunk`/`current_words`. -/
def chunkParagraphsAux : List String → List String → Nat → List (List String)
  | [], cur, _ => if cur.isEmpty then [] else [cur]
  | para :: ps, cur, curWords =>
    if cur.isEmpty = false ∧ MAX_CHUNK_WORDS < curWords + word_count para then
      cur :: chunkParagraphsAux ps [para] (word_count para)
    else
      chunkParagraphsAux ps (cur ++ [para]) (curWords + word_count para)

/-- The function `_chunk_paragraphs` of transformer.py. -/
def chunk_paragraphs (paragraphs : List String) : List (List String) :=
  chunkParagraphsAux paragraphs [] 0

theorem chunkParagraphsAux_join :
    ∀ (ps cur : List String) (w : Nat), (chunkParagraphsAux ps cur w).flatten = cur ++ ps := by
  intro ps
  induction ps with
  | nil => intro cur w; by_cases h : cur.isEmpty <;> simp_all [chunkParagraphsAux, List.isEmpty_iff]
  | cons para ps ih =>
    intro cur w
    rw [chunkParagraphsAux]
    split <;> simp [ih]

theorem chunkParagraphsAux_bound :
    ∀ (ps cur : List String) (w : Nat), w = (cur.map word_count).sum →
      (2 ≤ cur.length → w ≤ MAX_CHUNK_WORDS) →
      ∀ ch ∈ chunkParagraphsAux ps cur w, 2 ≤ ch.length → (ch.map word_count).sum ≤ MAX_CHUNK_WORDS := by
  intro ps
  induction ps with
  | nil =>
    intro cur w hw hbound ch hch hlen
    by_cases h : cur.isEmpty <;> simp [chunkParagraphsAux, h] at hch
    subst hch
    exact hw ▸ hbound hlen
  | cons para ps ih =>
    intro cur w hw hbound ch hch hlen
    rw [chunkParagraphsAux] at hch
    split at hch
    case isTrue h =>
      rcases List.mem_cons.mp hch with rfl | hch
      · exact hw ▸ hbound hlen
      · exact ih [para] (word_count para) (by simp) (by intro h2; simp at h2) ch hch hlen
    case isFalse h =>
      refine ih (cur ++ [para]) (w + word_count para) (by simp [hw]) ?_ ch hch hlen
      intro hlen2
      rcases not_and_or.mp h with h1 | h1
      · have hcur : cur = [] := by
          rcases cur with _ | _ <;> simp_all
        subst hcur
        simp at hlen2
      · omega

/-- C5: `_chunk_paragraphs` splits only at paragraph boundaries — the chunks
concatenate, in order, to exactly the input list — and every chunk holding two or
more paragraphs has total word count at most `MAX_CHUNK_WORDS` (250); a chunk can
exceed 250 words only by being a single paragraph. -/
theorem C5_chunk_paragraphs (paragraphs : List String) :
    (chunk_paragraphs paragraphs).flatten = paragraphs ∧
      ∀ ch ∈ chunk_paragraphs paragraphs, 2 ≤ ch.length →
        (ch.map word_count).sum ≤ MAX_CHUNK_WORDS :=
  ⟨by simpa using chunkParagraphsAux_join paragraphs [] 0,
   chunkParagraphsAux_bound paragraphs [] 0 rfl (by intro h; simp at h)⟩

/-- Witness for C5 at a concrete input. -/
theorem C5_chunk_paragraphs_witness :
    (chunk_paragraphs ["one two", "three"]).flatten = ["one two", "three"] ∧
      ["one two", "three"] ∈ chunk_paragraphs ["one two", "three"] ∧
      (["one two", "three"].map word_count).sum ≤ MAX_CHUNK_WORDS := by
  refine ⟨(C5_chunk_paragraphs _).1, by decide,
    (C5_chunk_paragraphs ["one two", "three"]).2 _ (by decide) (by decide)⟩

/-! ### Stripping, sentence splitting and long-paragraph batching -/

/-- Python `str.strip(chars)`: drop characters satisfying `p` from both ends. -/
def pyStripChars (s : String) (p : Char → Bool) : String :=
  ⟨((s.data.dropWhile p).reverse.dropWhile p).reverse⟩

/-- Python `str.strip()` (strip whitespace from both ends). -/
def pyStrip (s : String) : String := pyStripChars s Char.isWhitespace

/-- Characters of the lookbehind class in `_SENT_SPLIT_RE = (?<=[.!?])\s+`. -/
def isSentEnd (c : Char) : Bool := c == '.' || c == '!' || c == '?'

theorem dropWhile_length_le (p : Char → Bool) (l : List Char) :
    (l.dropWhile p).length ≤ l.length := by
  induction l with
  | nil => simp [List.dropWhile]
  | cons c cs ih => by_cases h : p c <;> simp [List.dropWhile, h] <;> omega

/-- Split semantics of `_SENT_SPLIT_RE.split`: a maximal whitespace run immediately
preceded by `.`, `!` or `?` separates pieces; any other whitespace stays inside the
current piece.  `acc` is the reversed current piece and `prev` the last consumed
character. -/
def sentSplitAux : List Char → List Char → Option Char → List (List Char)
  | [], acc, _ => [acc.reverse]
  | c :: cs, acc, prev =>
    if c.isWhitespace && (match prev with | some p => isSentEnd p | none => false) then
      acc.reverse :: sentSplitAux (cs.dropWhile Char.isWhitespace) [] none
    else
      sentSplitAux cs (c :: acc) (some c)
  termination_by cs _ _ => cs.length
  decreasing_by
    · simp only [List.length_cons]
      have := dropWhile_length_le Char.isWhitespace cs
      omega
    · simp

/-- Python `_SENT_SPLIT_RE.split(s)`. -/
def sentSplit (s : String) : List String := (sentSplitAux s.data [] none).map List.asString

/-- The sentence list `[s.strip() for s in _SENT_SPLIT_RE.split(text.strip()) if s.strip()]`
used by `_expand_units_for_levels` and `_split_long_paragraph_into_batches`. -/
def stripSentences (text : String) : List String :=
  ((sentSplit (pyStrip text)).map pyStrip).filter (fun s => s ≠ "")

/-- Loop of `_split_words_into_batches`; `cur` / `curWords` mirror the Python locals. -/
def splitWordsAux (maxWords : Nat) : List String → List String → Nat → List String
  | [], cur, _ => if cur.isEmpty then [] else [pyJoin " " cur]
  | w :: ws, cur, curWords =>
    if maxWords < curWords + 1 ∧ cur.isEmpty = false then
      pyJoin " " cur :: splitWordsAux maxWords ws [w] 1
    else
      splitWordsAux maxWords ws (cur ++ [w]) (curWords + 1)

/-- The function `_split_words_into_batches` of transformer.py. -/
def split_words_into_batches (text : String) (maxWords : Nat) : List String :=
  splitWordsAux maxWords (pyWords text) [] 0

theorem sum_map_word_count_of_ones {l : List String} (h : ∀ w ∈ l, word_count w = 1) :
    (l.map word_count).sum = l.length := by
  induction l with
  | nil => simp
  | cons w ws ih => simp_all <;> omega

theorem splitWordsAux_bound (maxWords : Nat) (hmax : 1 ≤ maxWords) :
    ∀ (ws cur : List String) (curWords : Nat),
      (∀ w ∈ cur, word_count w = 1) → curWords = cur.length → curWords ≤ maxWords →
      (∀ w ∈ ws, word_count w = 1) →
      ∀ b ∈ splitWordsAux maxWords ws cur curWords, word_count b ≤ maxWords := by
  intro ws
  induction ws with
  | nil =>
    intro cur curWords hcur hlen hle _ b hb
    by_cases h : cur.isEmpty <;> simp [splitWordsAux, h] at hb
    subst hb
    rw [word_count_pyJoin_space, sum_map_word_count_of_ones hcur]
    omega
  | cons w ws ih =>
    intro cur curWords hcur hlen hle hws b hb
    rw [splitWordsAux] at hb
    split at hb
    case isTrue h =>
      rcases List.mem_cons.mp hb with rfl | hb
      · rw [word_count_pyJoin_space, sum_map_word_count_of_ones hcur]
        omega
      · exact ih [w] 1 (by simp [hws w (by simp)]) (by simp) hmax
          (fun x hx => hws x (by simp [hx])) b hb
    case isFalse h =>
      refine ih (cur ++ [w]) (curWords + 1) ?_ (by simp [hlen]) ?_
        (fun x hx => hws x (by simp [hx])) b hb
      · intro x hx
        rcases List.mem_append.mp hx with hx | hx
        · exact hcur x hx
        · simp at hx; subst hx; exact hws x (by simp)
      · rcases not_and_or.mp h with h1 | h1
        · omega
        · have : cur = [] := by rcases cur with _ | _ <;> simp_all
          subst this
          simp at hlen
          omega

theorem split_words_into_batches_bound (text : String) (maxWords : Nat) (hmax : 1 ≤ maxWords) :
    ∀ b ∈ split_words_into_batches text maxWords, word_count b ≤ maxWords :=
  splitWordsAux_bound maxWords hmax (pyWords text) [] 0 (by simp) rfl (by omega)
    (fun w hw => (word_count_of_mem_pyWords text w hw).1)

/-- Sentence-batching loop of `_split_long_paragraph_into_batches`; `cur`/`curWords`
mirror `cur_sents`/`cur_words`, and the produced pieces appear in the Python order. -/
def sentenceBatchesAux (maxWords : Nat) : List String → List String → Nat → List String
  | [], cur, _ => if cur.isEmpty then [] else [pyJoin " " cur]
  | s :: ss, cur, curWords =>
    if maxWords < word_count s then
      (if cur.isEmpty then [] else [pyJoin " " cur]) ++
        split_words_into_batches s maxWords ++ sentenceBatchesAux maxWords ss [] 0
    else if cur.isEmpty = false ∧ maxWords < curWords + word_count s then
      pyJoin " " cur :: sentenceBatchesAux maxWords ss [s] (word_count s)
    else
      sentenceBatchesAux maxWords ss (cur ++ [s]) (curWords + word_count s)

theorem sentenceBatchesAux_bound (maxWords : Nat) (hmax : 1 ≤ maxWords) :
    ∀ (ss cur : List String) (curWords : Nat),
      curWords = (cur.map word_count).sum → curWords ≤ maxWords →
      ∀ b ∈ sentenceBatchesAux maxWords ss cur curWords, word_count b ≤ maxWords := by
  intro ss
  induction ss with
  | nil =>
    intro cur curWords hsum hle b hb
    by_cases h : cur.isEmpty <;> simp [sentenceBatchesAux, h] at hb
    subst hb
    rw [word_count_pyJoin_space]
    omega
  | cons s ss ih =>
    intro cur curWords hsum hle b hb
    rw [sentenceBatchesAux] at hb
    split at hb
    case isTrue h =>
      rcases List.mem_append.mp hb with hb | hb
      · rcases List.mem_append.mp hb with hb | hb
        · by_cases hc : cur.isEmpty <;> simp [hc] at hb
          subst hb
          rw [word_count_pyJoin_space]
          omega
        · exact split_words_into_batches_bound s maxWords hmax b hb
      · exact ih [] 0 (by simp) (by omega) b hb
    case isFalse h =>
      split at hb
      case isTrue h2 =>
        rcases List.mem_cons.mp hb with rfl | hb
        · rw [word_count_pyJoin_space]
          omega
        · exact ih [s] (word_count s) (by simp) (by omega) b hb
      case isFalse h2 =>
        refine ih (cur ++ [s]) (curWords + word_count s) (by simp [hsum]) ?_ b hb
        rcases not_and_or.mp h2 with h1 | h1
        · have : cur = [] := by rcases cur with _ | _ <;> simp_all
          subst this
          simp at hsum
          subst hsum
          omega
        · omega

/-- One layer of `_split_long_paragraph_into_batches`, with explicit `fuel` standing for
the Python call stack: the self-recursive last-resort branch spends one unit of fuel and
`none` models failure to terminate within the given fuel. -/
def splitLongFuel : Nat → String → Nat → Option (List String)
  | 0, _, _ => none
  | fuel + 1, paragraph, maxWords =>
    if word_count paragraph ≤ maxWords then some [paragraph]
    else
      if (stripSentences paragraph).length ≤ 1 then
        some (split_words_into_batches paragraph maxWords)
      else
        let out := sentenceBatchesAux maxWords (stripSentences paragraph) [] 0
        if out.length = 1 ∧ maxWords < word_count (out.headD "") then
          splitLongFuel fuel paragraph (if 200 < maxWords then maxWords / 2 else maxWords)
        else
          some out

/-- The function `_split_long_paragraph_into_batches` of transformer.py; by `C10_*`
one unit of fuel always suffices when `max_words ≥ 1`. -/
def split_long_paragraph_into_batches (paragraph : String) (maxWords : Nat) : List String :=
  (splitLongFuel 1 paragraph maxWords).getD []

theorem splitLongFuel_succ (p : String) (maxWords : Nat) (hmax : 1 ≤ maxWords) (fuel : Nat) :
    splitLongFuel (fuel + 1) p maxWords =
      some (if word_count p ≤ maxWords then [p]
        else if (stripSentences p).length ≤ 1 then split_words_into_batches p maxWords
        else sentenceBatchesAux maxWords (stripSentences p) [] 0) := by
  rw [splitLongFuel]
  by_cases h1 : word_count p ≤ maxWords
  · simp [h1]
  · simp only [if_neg h1]
    by_cases h2 : (stripSentences p).length ≤ 1
    · simp [h2]
    · simp only [if_neg h2]
      have hguard : ¬((sentenceBatchesAux maxWords (stripSentences p) [] 0).length = 1 ∧
          maxWords < word_count ((sentenceBatchesAux maxWords (stripSentences p) [] 0).headD "")) := by
        rintro ⟨hlen, hgt⟩
        have hmem : (sentenceBatchesAux maxWords (stripSentences p) [] 0).headD "" ∈
            sentenceBatchesAux maxWords (stripSentences p) [] 0 := by
          rcases h : sentenceBatchesAux maxWords (stripSentences p) [] 0 with _ | ⟨b, bs⟩
          · rw [h] at hlen; simp at hlen
          · simp
        have := sentenceBatchesAux_bound maxWords hmax (stripSentences p) [] 0 (by simp)
          (by omega) _ hmem
        omega
      simp only [if_neg hguard]

/-- C10: for every paragraph and every `max_words ≥ 1`,
`_split_long_paragraph_into_batches` terminates, and its self-recursive last-resort
branch is unreachable: one unit of call-stack fuel already produces a result, and any
larger fuel returns the same value, because every batch produced by the
sentence-batching and word-batching paths already has at most `max_words` words. -/
theorem C10_split_long_terminates (p : String) (maxWords : Nat) (hmax : 1 ≤ maxWords) :
    (splitLongFuel 1 p maxWords).isSome = true ∧
      ∀ fuel, 1 ≤ fuel → splitLongFuel fuel p maxWords = splitLongFuel 1 p maxWords := by
  refine ⟨by rw [splitLongFuel_succ p maxWords hmax 0]; rfl, ?_⟩
  intro fuel hfuel
  cases fuel with
  | zero => omega
  | succ k => rw [splitLongFuel_succ p maxWords hmax k, splitLongFuel_succ p maxWords hmax 0]

/-- Witness for C10 at a concrete paragraph and cap. -/
theorem C10_split_long_terminates_witness :
    (splitLongFuel 1 "a" 1).isSome = true ∧ splitLongFuel 5 "a" 1 = splitLongFuel 1 "a" 1 :=
  ⟨(C10_split_long_terminates "a" 1 (by decide)).1,
   (C10_split_long_terminates "a" 1 (by decide)).2 5 (by decide)⟩

/-- C6: every batch returned by `_split_long_paragraph_into_batches` with
`max_words = MAX_CALL_WORDS = 900` has a word count of at most 900 (a single
oversized sentence is hard-split into word batches, so even that case respects
the cap). -/
theorem C6_split_long_batches_bound (p : String) :
    ∀ b ∈ split_long_paragraph_into_batches p MAX_CALL_WORDS,
      word_count b ≤ MAX_CALL_WORDS := by
  intro b hb
  unfold split_long_paragraph_into_batches at hb
  rw [splitLongFuel_succ p MAX_CALL_WORDS (by decide) 0] at hb
  simp only [Option.getD_some] at hb
  split at hb
  case isTrue h1 =>
    simp at hb
    subst hb
    exact h1
  case isFalse h1 =>
    split at hb
    case isTrue h2 => exact split_words_into_batches_bound p MAX_CALL_WORDS (by decide) b hb
    case isFalse h2 =>
      exact sentenceBatchesAux_bound MAX_CALL_WORDS (by decide) (stripSentences p) [] 0
        (by simp) (by omega) b hb

/-- Witness for C6 at a concrete paragraph. -/
theorem C6_split_long_batches_bound_witness :
    "hello world" ∈ split_long_paragraph_into_batches "hello world" MAX_CALL_WORDS ∧
      word_count "hello world" ≤ MAX_CALL_WORDS :=
  ⟨by decide, C6_split_long_batches_bound "hello world" "hello world" (by decide)⟩

/-! ### Segment planner (`_split_into_level_segments`) -/

/-- LEVEL_SEGMENT_WEIGHTS of transformer.py; the float literals are modelled as the
exact rationals they denote. -/
def LEVEL_SEGMENT_WEIGHTS : List ℚ :=
  [7/10, 8/10, 125/100, 130/100, 125/100, 95/100, 75/100]

/-- Python list slice `l[a:b]` for nonnegative bounds. -/
def pySlice (l : List α) (a b : Nat) : List α := (l.take b).drop a

/-- Fold implementing `min(range(...), key=lambda i: (abs(prefix[i] - target), i))`:
with the index as tie-breaker the minimum is the first index whose distance is
strictly smaller than any earlier one. -/
def argminAbsAux (pfx : List Nat) (target : ℚ) : List Nat → Nat → Nat
  | [], best => best
  | i :: is, best =>
    if |((pfx.getD i 0 : Nat) : ℚ) - target| < |((pfx.getD best 0 : Nat) : ℚ) - target| then
      argminAbsAux pfx target is i
    else
      argminAbsAux pfx target is best

/-- Cut choice `min(range(min_cut, max_cut + 1), key=...)` of `_split_into_level_segments`. -/
def pickCut (minCut maxCut : Nat) (target : ℚ) (pfx : List Nat) : Nat :=
  argminAbsAux pfx target (List.range' (minCut + 1) (maxCut - minCut)) minCut

/-- One boundary choice: `cut = min_cut if min_cut > max_cut else min(range(...), key=...)`. -/
def nextCut (pfx : List Nat) (n numLevels bIdx prev : Nat) (t : ℚ) : Nat :=
  if n - (numLevels - bIdx) < prev + 1 then prev + 1
  else pickCut (prev + 1) (n - (numLevels - bIdx)) t pfx

/-- Boundary-selection loop of `_split_into_level_segments`; `bIdx` is `boundary_idx`
and `prev` the previous cut. -/
def buildBoundaries (pfx : List Nat) (n numLevels : Nat) : List ℚ → Nat → Nat → List Nat
  | [], _, _ => []
  | t :: ts, bIdx, prev =>
    nextCut pfx n numLevels bIdx prev t ::
      buildBoundaries pfx n numLevels ts (bIdx + 1) (nextCut pfx n numLevels bIdx prev t)

/-- The loop building `targets`: cumulative weight shares scaled by the grand total. -/
def cumTargetsAux (totalWeight grand : ℚ) : List ℚ → ℚ → List ℚ
  | [], _ => []
  | w :: ws, running =>
    ((running + w) / totalWeight * grand) :: cumTargetsAux totalWeight grand ws (running + w)

/-- Local `para_weights` of `_split_into_level_segments`, including the all-zero
substitution by `[1] * n`. -/
def planParaWeights (paragraphs : List String) : List Nat :=
  if ((paragraphs.map word_count).sum = 0) then List.replicate paragraphs.length 1
  else paragraphs.map word_count

/-- Local `prefix` of `_split_into_level_segments`: `[0, w0, w0+w1, ...]`. -/
def planPfx (paragraphs : List String) : List Nat :=
  List.scanl (· + ·) 0 (planParaWeights paragraphs)

/-- Local `targets` of `_split_into_level_segments` (`prefix[-1]` is the grand total). -/
def planTargets (weights : List ℚ) (paragraphs : List String) : List ℚ :=
  cumTargetsAux weights.sum (((planPfx paragraphs).getD paragraphs.length 0 : Nat) : ℚ)
    (weights.take (weights.length - 1)) 0

/-- Final loop of `_split_into_level_segments`: pairs from
`enumerate(boundaries + [n], start=1)` with the slices `paragraphs[start:end]`. -/
def slicesFrom (ps : List String) : Nat → List Nat → Nat → List (Nat × List String)
  | _, [], _ => []
  | start, e :: es, level => (level, pySlice ps start e) :: slicesFrom ps e es (level + 1)

/-- The function `_split_into_level_segments` of transformer.py.  The `ValueError` on a
non-7-weight profile is `Except.error`; `level_weights or LEVEL_SEGMENT_WEIGHTS` is the
emptiness test on the first line. -/
def split_into_level_segments (paragraphs : List String)
    (level_weights : List ℚ := LEVEL_SEGMENT_WEIGHTS) :
    Except String (List (Nat × List String)) :=
  let weights := if level_weights.isEmpty then LEVEL_SEGMENT_WEIGHTS else level_weights
  if weights.length ≠ 7 then .error "Expected exactly 7 level weights."
  else if paragraphs.isEmpty then
    .ok ((List.range' 1 weights.length).map fun level => (level, []))
  else if paragraphs.length < weights.length then
    .ok ((List.range' 1 weights.length).map fun level =>
      (level, if level ≤ paragraphs.length then [paragraphs.getD (level - 1) ""] else []))
  else
    .ok (slicesFrom paragraphs 0
      (buildBoundaries (planPfx paragraphs) paragraphs.length weights.length
        (planTargets weights paragraphs) 1 0 ++ [paragraphs.length]) 1)

theorem argminAbsAux_mem (pfx : List Nat) (target : ℚ) :
    ∀ (is : List Nat) (best : Nat), argminAbsAux pfx target is best ∈ best :: is := by
  intro is
  induction is with
  | nil => intro best; simp [argminAbsAux]
  | cons i is ih =>
    intro best
    rw [argminAbsAux]
    split
    · have := ih i
      simp only [List.mem_cons] at this ⊢
      tauto
    · have := ih best
      simp only [List.mem_cons] at this ⊢
      tauto

theorem pickCut_bounds (minCut maxCut : Nat) (target : ℚ) (pfx : List Nat)
    (h : minCut ≤ maxCut) :
    minCut ≤ pickCut minCut maxCut target pfx ∧ pickCut minCut maxCut target pfx ≤ maxCut := by
  have hmem := argminAbsAux_mem pfx target (List.range' (minCut + 1) (maxCut - minCut)) minCut
  rw [pickCut]
  rcases List.mem_cons.mp hmem with h1 | h1
  · rw [h1]; omega
  · have := List.mem_range'_1.mp h1
    omega

theorem nextCut_bounds (pfx : List Nat) (n bIdx prev : Nat) (t : ℚ) (k : Nat)
    (hrem : 7 - bIdx = k + 1) (h : prev + k + 2 ≤ n) :
    prev + 1 ≤ nextCut pfx n 7 bIdx prev t ∧ nextCut pfx n 7 bIdx prev t + k + 1 ≤ n := by
  rw [nextCut, hrem]
  rw [if_neg (by omega)]
  have := pickCut_bounds (prev + 1) (n - (k + 1)) t pfx (by omega)
  omega

theorem buildBoundaries_length (pfx : List Nat) (n numLevels : Nat) :
    ∀ (ts : List ℚ) (bIdx prev : Nat),
      (buildBoundaries pfx n numLevels ts bIdx prev).length = ts.length := by
  intro ts
  induction ts with
  | nil => intro bIdx prev; rfl
  | cons t ts ih => intro bIdx prev; simp [buildBoundaries, ih]

theorem cumTargetsAux_length (tw g : ℚ) :
    ∀ (ws : List ℚ) (r : ℚ), (cumTargetsAux tw g ws r).length = ws.length := by
  intro ws
  induction ws with
  | nil => intro r; rfl
  | cons w ws ih => intro r; simp [cumTargetsAux, ih]

theorem planTargets_length (paragraphs : List String) :
    (planTargets LEVEL_SEGMENT_WEIGHTS paragraphs).length = 6 := by
  rw [planTargets, cumTargetsAux_length]
  rfl

theorem buildBoundaries_chain (pfx : List Nat) (n : Nat) :
    ∀ (ts : List ℚ) (bIdx prev : Nat), ts.length + bIdx = 7 → prev + ts.length + 1 ≤ n →
      List.Chain (· < ·) prev (buildBoundaries pfx n 7 ts bIdx prev ++ [n]) := by
  intro ts
  induction ts with
  | nil =>
    intro bIdx prev h1 h2
    simp only [buildBoundaries, List.nil_append]
    exact List.Chain.cons (by omega) List.Chain.nil
  | cons t ts ih =>
    intro bIdx prev h1 h2
    have h1' : ts.length + 1 + bIdx = 7 := by simpa using h1
    have h2' : prev + ts.length + 2 ≤ n := by simp at h2; omega
    rw [buildBoundaries]
    simp only [List.cons_append]
    have hb := nextCut_bounds pfx n bIdx prev t ts.length (by omega) (by omega)
    exact List.Chain.cons (by omega) (ih (bIdx + 1) _ (by omega) (by omega))

theorem pySlice_append (l : List α) (a b c : Nat) (hab : a ≤ b) (hbc : b ≤ c)
    (hb : b ≤ l.length) :
    pySlice l a b ++ pySlice l b c = pySlice l a c := by
  unfold pySlice
  have h2 : (l.take c).take b = l.take b := by
    rw [List.take_take, Nat.min_eq_left hbc]
  have h3 : l.take b ++ (l.take c).drop b = l.take c := by
    rw [← h2, List.take_append_drop]
  have h4 : a ≤ (l.take b).length := by
    rw [List.length_take]
    omega
  calc (l.take b).drop a ++ (l.take c).drop b
      = (l.take b ++ (l.take c).drop b).drop a := by
        rw [List.drop_append_of_le_length h4]
    _ = (l.take c).drop a := by rw [h3]

theorem getLastD_concat_self (bs : List Nat) (n d : Nat) : (bs ++ [n]).getLastD d = n := by
  induction bs generalizing d with
  | nil => rfl
  | cons b bs ih => rw [List.cons_append, List.getLastD_cons, ih]

theorem chain_lt_all_le (n : Nat) :
    ∀ (bs : List Nat) (a : Nat), List.Chain (· < ·) a (bs ++ [n]) →
      a ≤ n ∧ ∀ e ∈ bs ++ [n], e ≤ n := by
  intro bs
  induction bs with
  | nil =>
    intro a h
    rw [List.nil_append, List.chain_cons] at h
    refine ⟨by omega, ?_⟩
    intro e he
    simp at he
    omega
  | cons b bs ih =>
    intro a h
    rw [List.cons_append, List.chain_cons] at h
    obtain ⟨hab, h2⟩ := h
    have hb := ih b h2
    refine ⟨by omega, ?_⟩
    intro e he
    rcases List.mem_cons.mp he with rfl | he
    · exact hb.1
    · exact hb.2 e he

theorem chain_le_getLastD (a : Nat) (l : List Nat) (h : List.Chain (· ≤ ·) a l) :
    a ≤ l.getLastD a := by
  induction l generalizing a with
  | nil => simp [List.getLastD]
  | cons b l ih =>
    rw [List.chain_cons] at h
    have := ih b h.2
    rw [List.getLastD_cons]
    omega

theorem slicesFrom_length (ps : List String) :
    ∀ (es : List Nat) (start lv : Nat), (slicesFrom ps start es lv).length = es.length := by
  intro es
  induction es with
  | nil => intro start lv; rfl
  | cons e es ih => intro start lv; simp [slicesFrom, ih]

theorem slicesFrom_fst (ps : List String) :
    ∀ (es : List Nat) (start lv : Nat),
      (slicesFrom ps start es lv).map Prod.fst = List.range' lv es.length := by
  intro es
  induction es with
  | nil => intro start lv; rfl
  | cons e es ih =>
    intro start lv
    rw [slicesFrom, List.map_cons, ih, List.length_cons, List.range'_succ]

theorem slicesFrom_join (ps : List String) :
    ∀ (es : List Nat) (start lv : Nat), List.Chain (· ≤ ·) start es →
      (∀ e ∈ es, e ≤ ps.length) → start ≤ ps.length →
      ((slicesFrom ps start es lv).map Prod.snd).flatten =
        pySlice ps start (es.getLastD start) := by
  intro es
  induction es with
  | nil =>
    intro start lv _ _ _
    have : ps.length ≤ ps.length := le_refl _
    simp only [slicesFrom, List.map_nil, List.flatten_nil, List.getLastD]
    rw [pySlice]
    rw [eq_comm, List.drop_eq_nil_iff]
    rw [List.length_take]
    omega
  | cons e es ih =>
    intro start lv hchain hbound hstart
    rw [List.chain_cons] at hchain
    rw [slicesFrom]
    simp only [List.map_cons, List.flatten_cons]
    rw [ih e (lv + 1) hchain.2 (fun x hx => hbound x (by simp [hx])) (hbound e (by simp))]
    rw [List.getLastD_cons]
    exact pySlice_append ps start e (es.getLastD e) hchain.1
      (chain_le_getLastD e es hchain.2) (hbound e (by simp))

theorem slicesFrom_nonempty (ps : List String) :
    ∀ (es : List Nat) (start lv : Nat), List.Chain (· < ·) start es →
      (∀ e ∈ es, e ≤ ps.length) →
      ∀ seg ∈ slicesFrom ps start es lv, seg.2 ≠ [] := by
  intro es
  induction es with
  | nil => intro start lv _ _ seg hseg; simp [slicesFrom] at hseg
  | cons e es ih =>
    intro start lv hchain hbound seg hseg
    rw [List.chain_cons] at hchain
    rw [slicesFrom] at hseg
    rcases List.mem_cons.mp hseg with rfl | hseg
    · have he := hbound e (by simp)
      have hlt := hchain.1
      simp only
      intro hnil
      have hlen : (pySlice ps start e).length = min e ps.length - start := by
        simp [pySlice, List.length_drop, List.length_take]
      rw [hnil] at hlen
      simp at hlen
      omega
    · exact ih e (lv + 1) hchain.2 (fun x hx => hbound x (by simp [hx])) seg hseg

theorem split_eq_of_seven (ps : List String) (h7 : 7 ≤ ps.length) :
    split_into_level_segments ps =
      .ok (slicesFrom ps 0
        (buildBoundaries (planPfx ps) ps.length 7
          (planTargets LEVEL_SEGMENT_WEIGHTS ps) 1 0 ++ [ps.length]) 1) := by
  have hne : ps.isEmpty = false := by
    rcases ps with _ | _
    · simp at h7
    · rfl
  simp only [split_into_level_segments, ite_self, hne]
  rw [if_neg (by simp [LEVEL_SEGMENT_WEIGHTS])]
  rw [if_neg (by simp)]
  rw [if_neg (by simp [LEVEL_SEGMENT_WEIGHTS]; omega)]
  rfl

/-- C1: with the default 7-entry weight profile, `_split_into_level_segments` always
returns exactly 7 segments labelled with levels 1..7 in increasing order whose
paragraph lists concatenate, in order, to the full input; an empty input yields 7
empty segments; and when the input has at least 7 units the six internal cut indices
are strictly increasing (the final segment absorbing the remainder up to `n`) and
every segment is non-empty. -/
theorem C1_segment_planner (paragraphs : List String) :
    ∃ segs, split_into_level_segments paragraphs = .ok segs ∧
      segs.length = 7 ∧
      segs.map Prod.fst = [1, 2, 3, 4, 5, 6, 7] ∧
      (segs.map Prod.snd).flatten = paragraphs ∧
      (paragraphs = [] → segs.map Prod.snd = List.replicate 7 []) ∧
      (7 ≤ paragraphs.length →
        (∃ bs : List Nat, List.Chain (· < ·) 0 (bs ++ [paragraphs.length]) ∧
          segs = slicesFrom paragraphs 0 (bs ++ [paragraphs.length]) 1) ∧
        ∀ seg ∈ segs, seg.2 ≠ []) := by
  by_cases h7 : 7 ≤ paragraphs.length
  · have hlen6 : (buildBoundaries (planPfx paragraphs) paragraphs.length 7
        (planTargets LEVEL_SEGMENT_WEIGHTS paragraphs) 1 0).length = 6 := by
      rw [buildBoundaries_length, planTargets_length]
    have hchain : List.Chain (· < ·)
        0 (buildBoundaries (planPfx paragraphs) paragraphs.length 7
          (planTargets LEVEL_SEGMENT_WEIGHTS paragraphs) 1 0 ++ [paragraphs.length]) := by
      refine buildBoundaries_chain _ _ _ 1 0 ?_ ?_
      · rw [planTargets_length]
      · rw [planTargets_length]; omega
    have hbound := chain_lt_all_le paragraphs.length _ 0 hchain
    have hchainle := List.Chain.imp (fun a b h => Nat.le_of_lt h) hchain
    refine ⟨_, split_eq_of_seven paragraphs h7, ?_, ?_, ?_, ?_, ?_⟩
    · rw [slicesFrom_length]
      simp [hlen6]
    · rw [slicesFrom_fst]
      simp only [List.length_append, hlen6, List.length_cons, List.length_nil]
      decide
    · rw [slicesFrom_join _ _ _ _ hchainle hbound.2 (by omega), getLastD_concat_self]
      simp [pySlice]
    · intro hps
      subst hps
      simp at h7
    · intro _
      exact ⟨⟨_, hchain, rfl⟩, slicesFrom_nonempty _ _ _ _ hchain hbound.2⟩
  · push_neg at h7
    have hW : (if LEVEL_SEGMENT_WEIGHTS.isEmpty = true then LEVEL_SEGMENT_WEIGHTS
        else LEVEL_SEGMENT_WEIGHTS) = LEVEL_SEGMENT_WEIGHTS := ite_self _
    have hL : LEVEL_SEGMENT_WEIGHTS.length = 7 := rfl
    have hr : List.range' 1 7 = [1, 2, 3, 4, 5, 6, 7] := rfl
    rcases paragraphs with _ | ⟨a, _ | ⟨b, _ | ⟨c, _ | ⟨d, _ | ⟨e, _ | ⟨f, _ | ⟨g, rest⟩⟩⟩⟩⟩⟩⟩
    · exact ⟨_, rfl, by simp [hW, hL], by simp [hW, hL, hr, List.map_map],
        by simp [hW, hL, hr], fun _ => by simp [hW, hL, hr], by intro h; simp at h⟩
    · exact ⟨_, rfl, by simp [hW, hL], by simp [hW, hL, hr, List.map_map],
        by simp [hW, hL, hr], by simp, by intro h; simp at h⟩
    · exact ⟨_, rfl, by simp [hW, hL], by simp [hW, hL, hr, List.map_map],
        by simp [hW, hL, hr], by simp, by intro h; simp at h⟩
    · exact ⟨_, rfl, by simp [hW, hL], by simp [hW, hL, hr, List.map_map],
        by simp [hW, hL, hr], by simp, by intro h; simp at h⟩
    · exact ⟨_, rfl, by simp [hW, hL], by simp [hW, hL, hr, List.map_map],
        by simp [hW, hL, hr], by simp, by intro h; simp at h⟩
    · exact ⟨_, rfl, by simp [hW, hL], by simp [hW, hL, hr, List.map_map],
        by simp [hW, hL, hr], by simp, by intro h; simp at h⟩
    · exact ⟨_, rfl, by simp [hW, hL], by simp [hW, hL, hr, List.map_map],
        by simp [hW, hL, hr], by simp, by intro h; simp at h⟩
    · simp only [List.length_cons] at h7
      omega

/-- Witness for C1 at a concrete 8-paragraph input. -/
theorem C1_segment_planner_witness :
    7 ≤ (["a", "b", "c", "d", "e", "f", "g", "h"] : List String).length ∧
      ∀ seg ∈ (split_into_level_segments
        ["a", "b", "c", "d", "e", "f", "g", "h"]).toOption.getD [], seg.2 ≠ [] := by
  obtain ⟨segs, hok, _, _, _, _, hge⟩ :=
    C1_segment_planner ["a", "b", "c", "d", "e", "f", "g", "h"]
  refine ⟨by decide, ?_⟩
  rw [hok]
  exact (hge (by decide)).2

/-! ### Untrusted generation results: `PyVal`, coercion and normalization -/

/-- JSON-like Python values crossing the generation-adapter boundary. -/
inductive PyVal where
  | none
  | bool (b : Bool)
  | int (n : Int)
  | str (s : String)
  | list (xs : List PyVal)
  | dict (kvs : List (String × PyVal))
deriving Inhabited

/-- Python `d.get(key, default)`; the modelled call sites only apply it to dicts. -/
def pyGet (v : PyVal) (key : String) (dflt : PyVal) : PyVal :=
  match v with
  | .dict kvs => ((kvs.find? fun kv => kv.1 == key).map Prod.snd).getD dflt
  | _ => dflt

/-- Python truthiness. -/
def truthy : PyVal → Bool
  | .none => false
  | .bool b => b
  | .int n => n != 0
  | .str s => s != ""
  | .list xs => !xs.isEmpty
  | .dict kvs => !kvs.isEmpty

/-- Python `repr` (string escaping simplified to plain single-quoting). -/
def pyRepr : PyVal → String
  | .none => "None"
  | .bool true => "True"
  | .bool false => "False"
  | .int n => toString n
  | .str s => "\x27" ++ s ++ "\x27"
  | .list xs => "[" ++ String.intercalate ", " (xs.attach.map fun x => pyRepr x.1) ++ "]"
  | .dict kvs =>
    "\x7b" ++ String.intercalate ", "
      (kvs.attach.map fun kv => "\x27" ++ kv.1.1 ++ "\x27: " ++ pyRepr kv.1.2) ++ "\x7d"
decreasing_by
  · have := List.sizeOf_lt_of_mem x.2
    simp at this ⊢
    omega
  · obtain ⟨⟨k, v⟩, hkv⟩ := kv
    have := List.sizeOf_lt_of_mem hkv
    simp at this ⊢
    omega

/-- Python `str()`: identity on strings, `repr` on containers. -/
def pyStr : PyVal → String
  | .none => "None"
  | .bool true => "True"
  | .bool false => "False"
  | .int n => toString n
  | .str s => s
  | v => pyRepr v

/-- Python `s.startswith(p)`. -/
def pyStartsWith (s p : String) : Bool := p.data.isPrefixOf s.data

/-- Python `s.endswith(p)`. -/
def pyEndsWith (s p : String) : Bool := p.data.reverse.isPrefixOf s.data.reverse

/-- Python `s.lower()` (character-wise lowering). -/
def pyLower (s : String) : String := ⟨s.data.map Char.toLower⟩

/-- The function `_clean_term_token` of transformer.py, on strings
(`token[1:]` is `drop 1`, `token[:-1]` is `dropLast`). -/
def clean_term_token (value : String) : String :=
  let token := pyStrip value
  let token := pyStrip (pyStripChars token fun c => c == '\x7b' || c == '\x7d')
  let token := if pyStartsWith token "|" then pyStrip ⟨token.data.drop 1⟩ else token
  let token := if pyEndsWith token "|" then pyStrip ⟨token.data.dropLast⟩ else token
  token

/-- `_clean_term_token` applied to an arbitrary value: `(value or "").strip()` raises
`AttributeError` when the value is truthy but not a string. -/
def cleanTermTokenVal : PyVal → Option String
  | .str s => some (clean_term_token s)
  | v => if truthy v then Option.none else some (clean_term_token "")

/-- Loop of the `list` branch of `_coerce_transform_result`: strings are stripped and
wrapped (empties dropped), dicts pass through, anything else is skipped. -/
def coerceItems : List PyVal → List PyVal
  | [] => []
  | .str s :: rest =>
    if pyStrip s ≠ "" then
      .dict [("text", .str (pyStrip s)), ("footnote_refs", .list [])] :: coerceItems rest
    else coerceItems rest
  | .dict kvs :: rest => .dict kvs :: coerceItems rest
  | _ :: rest => coerceItems rest

/-- The function `_coerce_transform_result` of transformer.py. -/
def coerce_transform_result (result : PyVal) : PyVal :=
  match result with
  | .dict kvs => .dict kvs
  | .str s =>
    .dict [("paragraphs", .list
        (if pyStrip s ≠ "" then
          [.dict [("text", .str (pyStrip s)), ("footnote_refs", .list [])]]
        else [])),
      ("new_terms", .list [])]
  | .list items => .dict [("paragraphs", .list (coerceItems items)), ("new_terms", .list [])]
  | _ => .dict [("paragraphs", .list []), ("new_terms", .list [])]

/-- The function `_normalize_footnote_refs` of transformer.py. -/
def normalize_footnote_refs (value : PyVal) : List String :=
  let refs : List PyVal :=
    match value with
    | .list xs => xs
    | .str s => [.str s]
    | .none => []
    | v => [.str (pyStr v)]
  (refs.map fun ref =>
    clean_term_token (match ref with | .str s => s | v => pyStr v)).filter
      fun cleaned => cleaned ≠ ""

/-- A normalized paragraph record: a string `text` plus cleaned `footnote_refs`. -/
structure ParaRec where
  text : String
  footnote_refs : List String
deriving DecidableEq

/-- Coercion of the `text` field in `_normalized_paragraphs`
(`"" if text_value is None else str(text_value)`). -/
def textFieldToStr : PyVal → String
  | .str s => s
  | .none => ""
  | v => pyStr v

/-- The function `_normalized_paragraphs` of transformer.py. -/
def normalized_paragraphs (result : PyVal) : List ParaRec :=
  let raw := pyGet result "paragraphs" (.list [])
  let paragraphs : List PyVal :=
    match raw with
    | .list xs => xs
    | .none => []
    | v => [v]
  paragraphs.filterMap fun para =>
    match para with
    | .str s => some ⟨s, []⟩
    | .dict kvs =>
      some ⟨textFieldToStr (pyGet (.dict kvs) "text" (.str "")),
        normalize_footnote_refs (pyGet (.dict kvs) "footnote_refs" (.list []))⟩
    | _ => Option.none

theorem normalize_footnote_refs_nonempty (value : PyVal) :
    ∀ r ∈ normalize_footnote_refs value, r ≠ "" := by
  intro r hr
  simp only [normalize_footnote_refs, List.mem_filter] at hr
  simpa using hr.2

/-- C8: for every input value of any shape, `_coerce_transform_result` followed by
`_normalized_paragraphs` yields (total functions, never raising) a list of paragraph
records with a string `text` field (by the type of `ParaRec`) and a `footnote_refs`
field that is a list of non-empty strings. -/
theorem C8_coerce_then_normalize_total (v : PyVal) :
    ∀ pr ∈ normalized_paragraphs (coerce_transform_result v),
      ∀ r ∈ pr.footnote_refs, r ≠ "" := by
  intro pr hpr r hr
  simp only [normalized_paragraphs, List.mem_filterMap] at hpr
  obtain ⟨para, _, hpara⟩ := hpr
  match para with
  | .str s =>
    simp at hpara
    rw [← hpara] at hr
    simp at hr
  | .dict kvs =>
    simp at hpara
    rw [← hpara] at hr
    exact normalize_footnote_refs_nonempty _ r hr
  | .none | .bool _ | .int _ | .list _ => simp at hpara

/-- Witness for C8 at a concrete malformed value. -/
theorem C8_coerce_then_normalize_total_witness :
    (⟨"", ["5", "x"]⟩ : ParaRec) ∈ normalized_paragraphs (coerce_transform_result
      (.list [.dict [("footnote_refs", .list [.int 5, .str " x "])]])) ∧
      ("5" : String) ≠ "" :=
  ⟨by decide,
   C8_coerce_then_normalize_total
     (.list [.dict [("footnote_refs", .list [.int 5, .str " x "])]])
     ⟨"", ["5", "x"]⟩ (by decide) "5" (by decide)⟩

/-! ### Footnote reconciliation (`_ensure_new_terms_for_refs`) -/

/-- Python `s.lower().strip()`. -/
def lowerStrip (s : String) : String := pyStrip (pyLower s)

/-- The stub record `_ensure_new_terms_for_refs` synthesizes: term and translation are
the raw (cleaned) term, category is "other", all other fields empty. -/
def stubFor (term : String) : PyVal :=
  .dict [("term", .str term), ("translation", .str term), ("explanation", .str ""),
    ("category", .str "other"), ("grammar_note", .str ""), ("pronunciation", .str ""),
    ("native_script", .str "")]

/-- `list(result.get("new_terms", []) or [])`: `or` replaces any falsy value by `[]`;
`list(...)` iterates a string into its characters and a dict into its keys, and raises
`TypeError` on a truthy non-iterable. -/
def newTermsList (result : PyVal) : Except String (List PyVal) :=
  let v := pyGet result "new_terms" (.list [])
  if truthy v = false then .ok []
  else
    match v with
    | .list xs => .ok xs
    | .str s => .ok (s.data.map fun c => .str ⟨[c]⟩)
    | .dict kvs => .ok (kvs.map fun kv => .str kv.1)
    | _ => .error "TypeError: object is not iterable"

/-- Python `fixed = dict(term_data); fixed[k] = v`: replace the first binding of `k`
(keeping its position) or append a new one. -/
def setKV : List (String × PyVal) → String → PyVal → List (String × PyVal)
  | [], k, val => [(k, val)]
  | (k1, v1) :: rest, k, val =>
    if k1 == k then (k, val) :: rest else (k1, v1) :: setKV rest k val

/-- Python `dict` assignment helper on `PyVal`. -/
def dictSet (v : PyVal) (k : String) (val : PyVal) : PyVal :=
  match v with
  | .dict kvs => .dict (setKV kvs k val)
  | w => w

/-- Normalization loop over `new_terms` in `_ensure_new_terms_for_refs`: a string
entry becomes a full stub, a dict entry gets its `term` cleaned (raising
`AttributeError` on a truthy non-string `term`, dropped if the cleaned term is
falsy), anything else is skipped. -/
def normalizeNewTerms : List PyVal → Except String (List PyVal)
  | [] => .ok []
  | .str s :: rest =>
    (normalizeNewTerms rest).map fun tail =>
      if clean_term_token s ≠ "" then stubFor (clean_term_token s) :: tail else tail
  | .dict kvs :: rest =>
    match cleanTermTokenVal (pyGet (.dict kvs) "term" (.str "")) with
    | Option.none => .error "AttributeError: object has no attribute strip"
    | some nt =>
      if nt = "" then normalizeNewTerms rest
      else (normalizeNewTerms rest).map fun tail => dictSet (.dict kvs) "term" (.str nt) :: tail
  | _ :: rest => normalizeNewTerms rest

/-- The lookup key `t.get("term", "").lower().strip()` used for `term_lookup`
(normalized entries always carry a string `term`, so the non-string arm is inert). -/
def entryKey (t : PyVal) : String :=
  match pyGet t "term" (.str "") with
  | .str s => lowerStrip s
  | _ => ""

/-- The condition under which the reference loop of `_ensure_new_terms_for_refs`
records a new cleaned reference. -/
def newRefCond (lookupKeys refs : List String) (cleaned : String) : Prop :=
  lowerStrip cleaned ≠ "" ∧ lowerStrip cleaned ∉ lookupKeys ∧
    lowerStrip cleaned ∉ refs.map lowerStrip

instance (L refs : List String) (c : String) : Decidable (newRefCond L refs c) := by
  unfold newRefCond
  infer_instance

/-- Inner reference-collection loop of `_ensure_new_terms_for_refs` over one
paragraph's `footnote_refs` (`refs` is the accumulator). -/
def collectRefsPara (L : List String) : List String → List String → List String
  | [], refs => refs
  | ref :: rest, refs =>
    if newRefCond L refs (clean_term_token ref) then
      collectRefsPara L rest (refs ++ [clean_term_token ref])
    else
      collectRefsPara L rest refs

/-- Outer reference-collection loop of `_ensure_new_terms_for_refs` over the
normalized paragraphs. -/
def collectRefs (L : List String) : List ParaRec → List String → List String
  | [], refs => refs
  | p :: ps, refs => collectRefs L ps (collectRefsPara L p.footnote_refs refs)

/-- The function `_ensure_new_terms_for_refs` of transformer.py (an `Except.error`
anywhere aborts the whole call, as a raised exception would). -/
def ensure_new_terms_for_refs (result : PyVal) : Except String (List PyVal) :=
  (newTermsList (coerce_transform_result result)).bind fun rawTerms =>
    (normalizeNewTerms rawTerms).map fun newTerms =>
      let lookupKeys := (newTerms.filter fun t => truthy (pyGet t "term" PyVal.none)).map entryKey
      let refs := collectRefs lookupKeys
        (normalized_paragraphs (coerce_transform_result result)) []
      let missing := refs.filter fun r => lowerStrip r ∉ lookupKeys
      newTerms ++ missing.map stubFor

theorem except_bind_ok (a : α) (f : α → Except ε β) :
    (Except.ok a : Except ε α).bind f = f a := rfl

theorem except_bind_error (e : ε) (f : α → Except ε β) :
    (Except.error e : Except ε α).bind f = .error e := rfl

theorem except_map_ok (a : α) (f : α → β) :
    (Except.ok a : Except ε α).map f = .ok (f a) := rfl

theorem except_map_error (e : ε) (f : α → β) :
    (Except.error e : Except ε α).map f = .error e := rfl

theorem entryKey_stubFor (x : String) : entryKey (stubFor x) = lowerStrip x := rfl

theorem collectRefsPara_sub (L : List String) :
    ∀ (rs refs : List String) (x : String), x ∈ refs → x ∈ collectRefsPara L rs refs := by
  intro rs
  induction rs with
  | nil => intro refs x hx; simpa [collectRefsPara] using hx
  | cons a rest ih =>
    intro refs x hx
    by_cases hc : newRefCond L refs (clean_term_token a)
    · rw [collectRefsPara, if_pos hc]
      exact ih _ x (by simp [hx])
    · rw [collectRefsPara, if_neg hc]
      exact ih _ x hx

theorem collectRefsPara_spec (L : List String) :
    ∀ (rs refs : List String) (r : String), r ∈ rs →
      lowerStrip (clean_term_token r) ≠ "" →
      lowerStrip (clean_term_token r) ∈ L ∨
        lowerStrip (clean_term_token r) ∈ (collectRefsPara L rs refs).map lowerStrip := by
  intro rs
  induction rs with
  | nil => intro refs r hr; simp at hr
  | cons a rest ih =>
    intro refs r hr hne
    rcases List.mem_cons.mp hr with rfl | hr
    · by_cases hc : newRefCond L refs (clean_term_token r)
      · rw [collectRefsPara, if_pos hc]
        right
        exact List.mem_map.mpr ⟨clean_term_token r,
          collectRefsPara_sub L rest _ _ (by simp), rfl⟩
      · rw [collectRefsPara, if_neg hc]
        rw [newRefCond, not_and_or, not_and_or] at hc
        rcases hc with hc | hc | hc
        · exact absurd hne (by simpa using hc)
        · exact Or.inl (by simpa using hc)
        · right
          simp only [not_not] at hc
          obtain ⟨x, hx, hkey⟩ := List.mem_map.mp hc
          exact List.mem_map.mpr ⟨x, collectRefsPara_sub L rest _ _ hx, hkey⟩
    · by_cases hc : newRefCond L refs (clean_term_token a)
      · rw [collectRefsPara, if_pos hc]; exact ih _ r hr hne
      · rw [collectRefsPara, if_neg hc]; exact ih _ r hr hne

theorem collectRefs_sub (L : List String) :
    ∀ (ps : List ParaRec) (refs : List String) (x : String),
      x ∈ refs → x ∈ collectRefs L ps refs := by
  intro ps
  induction ps with
  | nil => intro refs x hx; simpa [collectRefs] using hx
  | cons p ps ih =>
    intro refs x hx
    rw [collectRefs]
    exact ih _ x (collectRefsPara_sub L p.footnote_refs refs x hx)

theorem collectRefs_spec (L : List String) :
    ∀ (ps : List ParaRec) (refs : List String) (p : ParaRec) (r : String),
      p ∈ ps → r ∈ p.footnote_refs → lowerStrip (clean_term_token r) ≠ "" →
      lowerStrip (clean_term_token r) ∈ L ∨
        lowerStrip (clean_term_token r) ∈ (collectRefs L ps refs).map lowerStrip := by
  intro ps
  induction ps with
  | nil => intro refs p r hp; simp at hp
  | cons q ps ih =>
    intro refs p r hp hr hne
    rcases List.mem_cons.mp hp with rfl | hp
    · rcases collectRefsPara_spec L p.footnote_refs refs r hr hne with hk | hk
      · exact Or.inl hk
      · right
        obtain ⟨x, hx, hkey⟩ := List.mem_map.mp hk
        rw [collectRefs]
        exact List.mem_map.mpr ⟨x, collectRefs_sub L ps _ x hx, hkey⟩
    · rw [collectRefs]
      exact ih _ p r hp hr hne

/-- Concrete malformed result demonstrating the C3 edge case: the ref `"|||"`
survives `_normalize_footnote_refs` as `"|"`, but a second `_clean_term_token`
pass inside `_ensure_new_terms_for_refs` reduces it to the empty string, so no
entry is synthesized for it. -/
def C3cex : PyVal :=
  .dict [("paragraphs", .list [.dict [("text", .str ""),
    ("footnote_refs", .list [.str "|||"])]]), ("new_terms", .list [])]

/-- C3 counterexample: the normalized paragraphs of `C3cex` contain the footnote
reference `"|"`, yet `_ensure_new_terms_for_refs` returns an empty `new_terms`
list, so that reference has no matching entry by term key. -/
theorem C3_counterexample :
    (normalized_paragraphs (coerce_transform_result C3cex)).map ParaRec.footnote_refs
        = [["|"]] ∧
      ensure_new_terms_for_refs C3cex = .ok [] := by
  constructor
  · decide
  · rfl

/-- C3 (amended): whenever `_ensure_new_terms_for_refs` returns a list (it raises when
`new_terms` is a truthy non-iterable or contains a dict entry whose `term` is truthy
but not a string), the returned list is exactly the normalized candidate entries
produced by its `new_terms` pass, followed by the synthesized stubs — each stub is
literally the dict `(term: x, translation: x, explanation: "", category: "other",
...)`, so a synthesized entry has translation equal to the raw term and category
"other" — and every footnote reference of the normalized paragraphs whose re-cleaned
token is non-empty has a matching entry by term key (lower-cased and stripped) in the
returned list, resolving either to a normalized candidate or to one of those stubs. -/
theorem C3_ensure_new_terms (v : PyVal) (ts : List PyVal)
    (hok : ensure_new_terms_for_refs v = .ok ts) :
    ∃ (rawTerms nt : List PyVal) (stubs : List String),
      newTermsList (coerce_transform_result v) = .ok rawTerms ∧
      normalizeNewTerms rawTerms = .ok nt ∧
      ts = nt ++ stubs.map (fun x => PyVal.dict
        [("term", .str x), ("translation", .str x), ("explanation", .str ""),
          ("category", .str "other"), ("grammar_note", .str ""),
          ("pronunciation", .str ""), ("native_script", .str "")]) ∧
      ∀ pr ∈ normalized_paragraphs (coerce_transform_result v), ∀ r ∈ pr.footnote_refs,
        lowerStrip (clean_term_token r) ≠ "" →
        (∃ t ∈ ts, entryKey t = lowerStrip (clean_term_token r)) ∧
        ((∃ t ∈ nt, entryKey t = lowerStrip (clean_term_token r)) ∨
          ∃ x ∈ stubs, lowerStrip x = lowerStrip (clean_term_token r)) := by
  unfold ensure_new_terms_for_refs at hok
  cases h1 : newTermsList (coerce_transform_result v) with
  | error e => rw [h1, except_bind_error] at hok; simp at hok
  | ok rawTerms =>
    simp only [h1, except_bind_ok] at hok
    cases h2 : normalizeNewTerms rawTerms with
    | error e => rw [h2, except_map_error] at hok; simp at hok
    | ok newTerms =>
      simp only [h2, except_map_ok, Except.ok.injEq] at hok
      subst hok
      set L := (newTerms.filter fun t => truthy (pyGet t "term" PyVal.none)).map entryKey
        with hL
      refine ⟨rawTerms, newTerms, _, rfl, h2, rfl, ?_⟩
      intro pr hpr r hr hne
      have hspec := collectRefs_spec L
        (normalized_paragraphs (coerce_transform_result v)) [] pr r hpr hr hne
      rcases hspec with hk | hk
      · rw [hL] at hk
        obtain ⟨t, ht, hkey⟩ := List.mem_map.mp hk
        exact ⟨⟨t, List.mem_append_left _ (List.mem_filter.mp ht).1, hkey⟩,
          Or.inl ⟨t, (List.mem_filter.mp ht).1, hkey⟩⟩
      · obtain ⟨x, hx, hkey⟩ := List.mem_map.mp hk
        by_cases hxL : lowerStrip x ∈ L
        · rw [hL] at hxL
          obtain ⟨t, ht, hkey2⟩ := List.mem_map.mp hxL
          exact ⟨⟨t, List.mem_append_left _ (List.mem_filter.mp ht).1, by rw [hkey2, hkey]⟩,
            Or.inl ⟨t, (List.mem_filter.mp ht).1, by rw [hkey2, hkey]⟩⟩
        · refine ⟨⟨stubFor x, List.mem_append_right _ (List.mem_map.mpr ⟨x, ?_, rfl⟩),
            by rw [entryKey_stubFor, hkey]⟩, Or.inr ⟨x, ?_, hkey⟩⟩ <;>
            exact List.mem_filter.mpr ⟨hx, by simpa using hxL⟩

/-- Concrete well-formed result for the C3 witness: one paragraph carrying the
footnote reference "casa" with no candidate entries. -/
def C3wit : PyVal :=
  .dict [("paragraphs", .list [.dict [("text", .str "t"),
    ("footnote_refs", .list [.str "casa"])]]), ("new_terms", .list [])]

/-- Witness for C3 at `C3wit`: the run returns exactly the one synthesized stub,
and the reference "casa" resolves to an entry with its key. -/
theorem C3_ensure_new_terms_witness :
    ensure_new_terms_for_refs C3wit = .ok [stubFor "casa"] ∧
      ∃ t ∈ [stubFor "casa"], entryKey t = lowerStrip (clean_term_token "casa") := by
  obtain ⟨rawTerms, nt, stubs, h1, h2, hdec, hres⟩ :=
    C3_ensure_new_terms C3wit [stubFor "casa"] rfl
  exact ⟨rfl, (hres ⟨"t", ["casa"]⟩ (by decide) "casa" (by decide) (by decide)).1⟩

/-! ### VocabularyTracker (`services/vocabulary.py`) -/

/-- VocabEntry of vocabulary.py.  Field values come from `dict.get` and are stored
unchecked by the dataclass, hence `PyVal`-typed; the position fields are the `int`
arguments of `add_terms`. -/
structure VocabEntry where
  spanish : PyVal
  english : PyVal
  explanation : PyVal
  first_chapter : Nat
  first_paragraph : Nat
  category : PyVal
  grammar_note : PyVal
  pronunciation : PyVal
  native_script : PyVal

/-- `VocabularyTracker.terms` as an insertion-ordered association list (Python dicts
preserve insertion order). -/
abbrev Tracker := List (String × VocabEntry)

/-- The `VocabEntry(...)` constructor call inside `add_terms`. -/
def mkVocabEntry (t : PyVal) (chapterNum paragraphOffset : Nat) : VocabEntry :=
  { spanish := pyGet t "term" (.str ""), english := pyGet t "translation" (.str ""),
    explanation := pyGet t "explanation" (.str ""), first_chapter := chapterNum,
    first_paragraph := paragraphOffset, category := pyGet t "category" (.str ""),
    grammar_note := pyGet t "grammar_note" (.str ""),
    pronunciation := pyGet t "pronunciation" (.str ""),
    native_script := pyGet t "native_script" (.str "") }

/-- Key extraction `t.get("term", "").lower().strip()` in `add_terms`; `none` models
the exception Python raises when `t` is not a dict or its `term` value is neither a
string nor absent. -/
def addTermKey (t : PyVal) : Option String :=
  match t with
  | .dict _ =>
    match pyGet t "term" (.str "") with
    | .str s => some (lowerStrip s)
    | _ => Option.none
  | _ => Option.none

/-- Dict lookup `self.terms[key]` (with `key in self.terms` as `isSome`). -/
def trackerFind : Tracker → String → Option VocabEntry
  | [], _ => Option.none
  | (k1, e) :: rest, k => if k1 = k then some e else trackerFind rest k

/-- `VocabularyTracker.add_terms` of vocabulary.py: for each candidate in order, skip
when the key is falsy or already present, insert a fresh entry otherwise.  A raised
exception (malformed candidate) aborts the loop, keeping insertions made so far, as
in Python. -/
def add_terms (tr : Tracker) : List PyVal → Nat → Nat → Tracker
  | [], _, _ => tr
  | t :: ts, chapterNum, paragraphOffset =>
    match addTermKey t with
    | Option.none => tr
    | some key =>
      if key = "" ∨ (trackerFind tr key).isSome then
        add_terms tr ts chapterNum paragraphOffset
      else
        add_terms (tr ++ [(key, mkVocabEntry t chapterNum paragraphOffset)])
          ts chapterNum paragraphOffset

/-- A sequence of `add_terms` calls: (candidates, chapter_num, paragraph_offset). -/
def runCalls (tr : Tracker) : List (List PyVal × Nat × Nat) → Tracker
  | [] => tr
  | (ts, ch, off) :: rest => runCalls (add_terms tr ts ch off) rest

/-- The first candidate in the list whose key is `k`. -/
def firstWithKey (k : String) : List PyVal → Option PyVal
  | [] => Option.none
  | t :: ts => if addTermKey t = some k then some t else firstWithKey k ts

theorem trackerFind_append_some (tr l : Tracker) (k : String) (e : VocabEntry)
    (h : trackerFind tr k = some e) : trackerFind (tr ++ l) k = some e := by
  induction tr with
  | nil => simp [trackerFind] at h
  | cons kv rest ih =>
    obtain ⟨k1, e1⟩ := kv
    rw [trackerFind] at h
    rw [List.cons_append, trackerFind]
    by_cases hk : k1 = k
    · rwa [if_pos hk] at h ⊢
    · rw [if_neg hk] at h ⊢
      exact ih h

theorem trackerFind_append_one_self (tr : Tracker) (k : String) (e : VocabEntry)
    (h : trackerFind tr k = Option.none) : trackerFind (tr ++ [(k, e)]) k = some e := by
  induction tr with
  | nil => simp [trackerFind]
  | cons kv rest ih =>
    obtain ⟨k1, e1⟩ := kv
    rw [trackerFind] at h
    rw [List.cons_append, trackerFind]
    by_cases hk : k1 = k
    · rw [if_pos hk] at h; exact absurd h (by simp)
    · rw [if_neg hk] at h ⊢
      exact ih h

theorem trackerFind_append_one_other (tr : Tracker) (k kt : String) (e : VocabEntry)
    (h : trackerFind tr k = Option.none) (hne : kt ≠ k) :
    trackerFind (tr ++ [(kt, e)]) k = Option.none := by
  induction tr with
  | nil => simp [trackerFind, hne]
  | cons kv rest ih =>
    obtain ⟨k1, e1⟩ := kv
    rw [trackerFind] at h
    rw [List.cons_append, trackerFind]
    by_cases hk : k1 = k
    · rw [if_pos hk] at h; exact absurd h (by simp)
    · rw [if_neg hk] at h ⊢
      exact ih h

theorem add_terms_preserves (k : String) (e : VocabEntry) :
    ∀ (ts : List PyVal) (tr : Tracker) (ch off : Nat),
      trackerFind tr k = some e → trackerFind (add_terms tr ts ch off) k = some e := by
  intro ts
  induction ts with
  | nil => intro tr ch off h; exact h
  | cons t ts ih =>
    intro tr ch off h
    cases hkey : addTermKey t with
    | none =>
      have hstep : add_terms tr (t :: ts) ch off = tr := by rw [add_terms, hkey]
      rw [hstep]
      exact h
    | some key =>
      have hstep : add_terms tr (t :: ts) ch off =
          if key = "" ∨ (trackerFind tr key).isSome then add_terms tr ts ch off
          else add_terms (tr ++ [(key, mkVocabEntry t ch off)]) ts ch off := by
        rw [add_terms, hkey]
      rw [hstep]
      by_cases hc : key = "" ∨ (trackerFind tr key).isSome
      · rw [if_pos hc]; exact ih tr ch off h
      · rw [if_neg hc]
        exact ih _ ch off (trackerFind_append_some tr _ k e h)

theorem runCalls_preserves (k : String) (e : VocabEntry) :
    ∀ (calls : List (List PyVal × Nat × Nat)) (tr : Tracker),
      trackerFind tr k = some e → trackerFind (runCalls tr calls) k = some e := by
  intro calls
  induction calls with
  | nil => intro tr h; exact h
  | cons c rest ih =>
    intro tr h
    obtain ⟨ts, ch, off⟩ := c
    exact ih _ (add_terms_preserves k e ts tr ch off h)

theorem add_terms_first_wins (k : String) (hk : k ≠ "") :
    ∀ (ts : List PyVal) (tr : Tracker) (ch off : Nat) (c : PyVal),
      trackerFind tr k = Option.none → (∀ t ∈ ts, (addTermKey t).isSome) →
      firstWithKey k ts = some c →
      trackerFind (add_terms tr ts ch off) k = some (mkVocabEntry c ch off) := by
  intro ts
  induction ts with
  | nil => intro tr ch off c _ _ hfind; simp [firstWithKey] at hfind
  | cons t ts ih =>
    intro tr ch off c hnone hwf hfind
    have hsome := hwf t (by simp)
    cases hkey : addTermKey t with
    | none => rw [hkey] at hsome; simp at hsome
    | some kt =>
      have hstep : add_terms tr (t :: ts) ch off =
          if kt = "" ∨ (trackerFind tr kt).isSome then add_terms tr ts ch off
          else add_terms (tr ++ [(kt, mkVocabEntry t ch off)]) ts ch off := by
        rw [add_terms, hkey]
      rw [firstWithKey, hkey] at hfind
      rw [hstep]
      by_cases hkt : kt = k
      · subst hkt
        rw [if_pos rfl] at hfind
        injection hfind with hfind
        subst hfind
        rw [if_neg (by simp [hk, hnone])]
        exact add_terms_preserves kt _ ts _ ch off
          (trackerFind_append_one_self tr kt _ hnone)
      · rw [if_neg (fun h => hkt (Option.some.inj h))] at hfind
        by_cases hc : kt = "" ∨ (trackerFind tr kt).isSome
        · rw [if_pos hc]
          exact ih tr ch off c hnone (fun x hx => hwf x (by simp [hx])) hfind
        · rw [if_neg hc]
          exact ih _ ch off c (trackerFind_append_one_other tr k kt _ hnone hkt)
            (fun x hx => hwf x (by simp [hx])) hfind

/-- C4: once a `VocabularyTracker` entry exists for a key, no later `add_terms` call
modifies or replaces it (first conjunct, over arbitrary call sequences); and within a
call on a fresh key, the retained entry is the one built from the first candidate
carrying that key, recording the chapter/level of that call (second conjunct; the
well-formedness hypothesis rules out candidates on which Python would raise
mid-loop). -/
theorem C4_vocabulary_first_wins :
    (∀ (calls : List (List PyVal × Nat × Nat)) (tr : Tracker) (k : String) (e : VocabEntry),
      trackerFind tr k = some e → trackerFind (runCalls tr calls) k = some e) ∧
    (∀ (ts : List PyVal) (tr : Tracker) (ch off : Nat) (k : String) (c : PyVal),
      k ≠ "" → trackerFind tr k = Option.none → (∀ t ∈ ts, (addTermKey t).isSome) →
      firstWithKey k ts = some c →
      trackerFind (add_terms tr ts ch off) k = some (mkVocabEntry c ch off)) :=
  ⟨fun calls tr k e h => runCalls_preserves k e calls tr h,
   fun ts tr ch off k c hk hnone hwf hfind =>
     add_terms_first_wins k hk ts tr ch off c hnone hwf hfind⟩

/-- First candidate for the C4 witness. -/
def C4cand1 : PyVal := .dict [("term", .str "casa"), ("translation", .str "house")]

/-- Conflicting later candidate with the same key for the C4 witness. -/
def C4cand2 : PyVal := .dict [("term", .str "Casa"), ("translation", .str "home")]

/-- Witness for C4: an existing entry survives a later conflicting call, and within
one call the first of two same-key candidates wins, recording that call's level. -/
theorem C4_vocabulary_first_wins_witness :
    trackerFind (runCalls [("casa", mkVocabEntry C4cand1 1 0)] [([C4cand2], 2, 0)]) "casa"
        = some (mkVocabEntry C4cand1 1 0) ∧
      trackerFind (add_terms [] [C4cand1, C4cand2] 1 0) "casa"
        = some (mkVocabEntry C4cand1 1 0) :=
  ⟨C4_vocabulary_first_wins.1 [([C4cand2], 2, 0)] [("casa", mkVocabEntry C4cand1 1 0)]
      "casa" (mkVocabEntry C4cand1 1 0) rfl,
   C4_vocabulary_first_wins.2 [C4cand1, C4cand2] [] 1 0 "casa" C4cand1
      (by decide) rfl (by decide) rfl⟩

/-! ### TransformationJob status (`models/job.py`, `routers/transform.py`) -/

/-- Column default `status="running"` of `TransformationJob` in models/job.py. -/
def jobDefaultStatus : String := "running"

/-- Job-record fields relevant to the status machine (models/job.py defaults). -/
structure Job where
  status : String
  total_chapters : Nat
  completed_chapters : Nat
  current_chapter : Nat
  error_message : Option String
deriving DecidableEq

/-- The record `start_transformation` creates in routers/transform.py:
`TransformationJob(project_id=project_id)` leaves every other column at its default. -/
def newJob : Job :=
  { status := jobDefaultStatus, total_chapters := 0, completed_chapters := 0,
    current_chapter := 0, error_message := Option.none }

/-- The status assignments `run_transformation` performs on a job record. -/
inductive JobEvent where
  | runStart
  | runCompleted
  | chapterFailed (level : Nat)
  | unhandledFault (msg : String)
deriving DecidableEq

/-- Status/error-message effect of each assignment site in transformer.py
(`job.status = "processing"` at run start, `"completed"` at the end,
`"failed"` on a chapter failure or in the outer exception handler). -/
def jobStep (j : Job) : JobEvent → Job
  | .runStart => { j with status := "processing", error_message := Option.none }
  | .runCompleted => { j with status := "completed" }
  | .chapterFailed level =>
    { j with
        status := "failed"
        error_message := some ("Failed while processing level " ++ toString level ++ ".") }
  | .unhandledFault msg => { j with status := "failed", error_message := some msg }

/-- A job's life: the creation default followed by any sequence of transitions. -/
def applyEvents (j : Job) : List JobEvent → Job
  | [] => j
  | e :: es => applyEvents (jobStep j e) es

/-- C2 counterexample: a freshly created `TransformationJob` record has status
`"running"` — outside the claimed set {processing, completed, failed} — until
`run_transformation` first touches it. -/
theorem C2_counterexample :
    newJob.status = "running" ∧
      newJob.status ∉ (["processing", "completed", "failed"] : List String) := by
  exact ⟨rfl, by decide⟩

/-- C2 (amended): every `TransformationJob` record is created with status `"running"`
(the column default; the router passes only `project_id`), every status reachable
under the `run_transformation` transitions lies in
{running, processing, completed, failed}, and the first thing a run does is set the
status to `"processing"`. -/
theorem C2_job_status_machine :
    newJob.status = "running" ∧
      (∀ es : List JobEvent, (applyEvents newJob es).status ∈
        (["running", "processing", "completed", "failed"] : List String)) ∧
      (jobStep newJob .runStart).status = "processing" := by
  refine ⟨rfl, ?_, rfl⟩
  have h : ∀ (es : List JobEvent) (j : Job),
      j.status ∈ (["running", "processing", "completed", "failed"] : List String) →
      (applyEvents j es).status ∈
        (["running", "processing", "completed", "failed"] : List String) := by
    intro es
    induction es with
    | nil => intro j hj; exact hj
    | cons e es ih =>
      intro j hj
      rw [applyEvents]
      refine ih _ ?_
      cases e <;> simp [jobStep]
  intro es
  exact h es newJob (by simp [newJob, jobDefaultStatus])

/-! ### Quality gate (`_romanization_issues`, `_transform_with_quality_retry`) -/

/-- The `script` entries of LANGUAGES in backend/languages.py; `none` models the
`ValueError` of `get_language` on an unknown code. -/
def languageScript : String → Option String
  | "en" => some "latin"
  | "es" => some "latin"
  | "fr" => some "latin"
  | "it" => some "latin"
  | "pt" => some "latin"
  | "de" => some "latin"
  | "pl" => some "latin"
  | "ru" => some "cyrillic"
  | "ja" => some "cjk"
  | "zh" => some "cjk"
  | "ko" => some "hangul"
  | "he" => some "hebrew"
  | "ar" => some "arabic"
  | _ => Option.none

/-- `_NATIVE_SCRIPT_PATTERNS` of transformer.py as code-point ranges. -/
def nativeScriptRanges : String → Option (List (Nat × Nat))
  | "ru" => some [(0x400, 0x4FF)]
  | "he" => some [(0x590, 0x5FF)]
  | "ar" => some [(0x600, 0x6FF)]
  | "ja" => some [(0x3040, 0x30FF), (0x3400, 0x9FFF)]
  | "zh" => some [(0x3400, 0x9FFF)]
  | "ko" => some [(0x1100, 0x11FF), (0xAC00, 0xD7AF)]
  | _ => Option.none

/-- `_NON_ASCII_ROMANIZATION_MARKERS` of transformer.py as character sets. -/
def romanizationMarkers : String → Option (List Char)
  | "ja" => some "ĀāĒēĪīŌōŪū".data
  | "zh" => some "ĀāÁáǍǎÀàĒēÉéĚěÈèĪīÍíǏǐÌìŌōÓóǑǒÒòŪūÚúǓǔÙùǕǖǗǘǙǚǛǜŃńŇňḾḿ".data
  | "ko" => some "ŎŏŬŭ".data
  | "ru" => some "ŠšČčŽžËë".data
  | "he" => some "ḤḥṢṣṬṭʿʾ".data
  | "ar" => some "ḤḥṢṣṬṭḌḍẒẓʿʾ".data
  | _ => Option.none

/-- A regex `search` over a union of code-point ranges. -/
def containsCharInRanges (text : String) (ranges : List (Nat × Nat)) : Bool :=
  text.data.any fun c => ranges.any fun r => decide (r.1 ≤ c.toNat ∧ c.toNat ≤ r.2)

/-- The function `_result_text` of transformer.py. -/
def result_text (result : PyVal) : String :=
  pyStrip (pyJoin " "
    ((normalized_paragraphs (coerce_transform_result result)).map ParaRec.text))

/-- The function `_romanization_issues` of transformer.py. -/
def romanization_issues (result : PyVal) (langCode srcLangCode : String) : List String :=
  match nativeScriptRanges langCode with
  | Option.none => []
  | some ranges =>
    if result_text result = "" then []
    else
      let sourceIsLatin : Bool :=
        match languageScript srcLangCode with
        | some s => s == "latin"
        | Option.none => true
      let issuesA : List String :=
        if sourceIsLatin && containsCharInRanges (result_text result) ranges then
          ["native-script characters found in paragraph text"]
        else []
      let issuesB : List String :=
        match romanizationMarkers langCode with
        | some markers =>
          if (result_text result).data.any (fun c => markers.contains c) then
            ["non-standard/diacritic romanization markers detected"]
          else []
        | Option.none => []
      issuesA ++ issuesB

/-- The closure `_transform_with_quality_retry` of `run_transformation`: the at most
two adapter responses one invocation can consume are passed explicitly; the returned
flag records whether the corrective retry call was issued. -/
def transform_with_quality_retry (firstResp retryResp : Option PyVal)
    (targetLang srcLang : String) : Option PyVal × Bool :=
  match firstResp with
  | Option.none => (Option.none, false)
  | some r0 =>
    if romanization_issues (coerce_transform_result r0) targetLang srcLang = [] then
      (some (coerce_transform_result r0), false)
    else
      match retryResp with
      | some r2 => (some (coerce_transform_result r2), true)
      | Option.none => (some (coerce_transform_result r0), true)

/-- C7: when the first adapter call succeeds the quality gate never turns it into a
chunk failure (the outcome is always `some`); exactly one corrective retry is issued,
precisely when the quality scan reports issues; and whatever the retry returns is
accepted — pass or fail — with no further quality check or escalation: the result is
the coerced retry response unconditionally. -/
theorem C7_quality_gate (r0 : PyVal) (retryResp : Option PyVal) (tl sl : String) :
    (transform_with_quality_retry (some r0) retryResp tl sl).1 ≠ Option.none ∧
      ((transform_with_quality_retry (some r0) retryResp tl sl).2 = true ↔
        romanization_issues (coerce_transform_result r0) tl sl ≠ []) ∧
      (∀ r2, retryResp = some r2 →
        romanization_issues (coerce_transform_result r0) tl sl ≠ [] →
        (transform_with_quality_retry (some r0) retryResp tl sl).1 =
          some (coerce_transform_result r2)) := by
  simp only [transform_with_quality_retry]
  by_cases h : romanization_issues (coerce_transform_result r0) tl sl = []
  · rw [if_pos h]
    exact ⟨by simp, by simp [h], fun r2 _ hne => absurd h hne⟩
  · rw [if_neg h]
    cases retryResp with
    | none => exact ⟨by simp, by simp [h], fun r2 hr2 => by simp at hr2⟩
    | some r2 =>
      refine ⟨by simp, by simp [h], ?_⟩
      intro r2b hr2 _
      injection hr2 with hr2
      subst hr2
      rfl

/-- First response for the C7 witness: Cyrillic text leaking into a Russian
transliteration target. -/
def C7first : PyVal := .dict [("paragraphs", .list [.str "привет"]), ("new_terms", .list [])]

/-- Retry response for the C7 witness, still carrying Cyrillic text. -/
def C7retry : PyVal := .dict [("paragraphs", .list [.str "мир"]), ("new_terms", .list [])]

/-- Witness for C7: a flagged first response triggers exactly one retry, whose
output is accepted (here a retry that itself still fails the scan). -/
theorem C7_quality_gate_witness :
    (transform_with_quality_retry (some C7first) (some C7retry) "ru" "en").1 =
        some (coerce_transform_result C7retry) ∧
      (transform_with_quality_retry (some C7first) (some C7retry) "ru" "en").2 = true := by
  have h := C7_quality_gate C7first (some C7retry) "ru" "en"
  exact ⟨h.2.2 C7retry rfl (by decide), h.2.1.mpr (by decide)⟩

/-! ### Single-flight execution (`run_transformation_guarded` and the project lock) -/

/-- Program points of one run request: `start` (before the in-process guard),
`waiting` (inside the `_acquire_project_lock` sleep-and-retry loop), `inCS`
(holding the advisory lock and mutating the document's chapters/job), `done`
(returned — after the run, or immediately for the guarded no-op). -/
inductive Pc where
  | start
  | waiting
  | inCS
  | done
deriving DecidableEq

/-- Shared state of two concurrent run requests on one document: the OS advisory
lock holder, the in-process `ACTIVE_JOB_IDS` registry, each task's program point,
and whether it has mutated the document's chapters. -/
structure LockState where
  lock : Option (Fin 2)
  active : List String
  pc : Fin 2 → Pc
  mutated : Fin 2 → Bool

/-- Job ids of the two requests (the router creates distinct jobs for distinct
requests; equal ids model the recovery-rescheduling path). -/
structure TaskCfg where
  jobId : Fin 2 → String

/-- Both requests about to enter `run_transformation_guarded`; lock free. -/
def initState : LockState :=
  { lock := Option.none, active := [], pc := fun _ => .start, mutated := fun _ => false }

/-- Interleaving semantics distilled from transformer.py: the in-process guard
(`job_id in ACTIVE_JOB_IDS` test-and-add is atomic — there is no `await` between the
membership test and the insert), the exclusive non-blocking `flock` with bounded
sleep-and-retry, chapter mutation only while the lock is held, and release of both
the lock and the registry entry in the `finally` blocks. -/
inductive Step (cfg : TaskCfg) : LockState → LockState → Prop where
  | enterSkip (t : Fin 2) (s : LockState) :
      s.pc t = .start → cfg.jobId t ∈ s.active →
      Step cfg s { s with pc := Function.update s.pc t .done }
  | enterRun (t : Fin 2) (s : LockState) :
      s.pc t = .start → cfg.jobId t ∉ s.active →
      Step cfg s { s with
        pc := Function.update s.pc t .waiting
        active := cfg.jobId t :: s.active }
  | acquire (t : Fin 2) (s : LockState) :
      s.pc t = .waiting → s.lock = Option.none →
      Step cfg s { s with pc := Function.update s.pc t .inCS, lock := some t }
  | acquireBlocked (t : Fin 2) (s : LockState) :
      s.pc t = .waiting → s.lock ≠ Option.none →
      Step cfg s s
  | mutate (t : Fin 2) (s : LockState) :
      s.pc t = .inCS →
      Step cfg s { s with mutated := Function.update s.mutated t true }
  | finish (t : Fin 2) (s : LockState) :
      s.pc t = .inCS →
      Step cfg s { s with
        pc := Function.update s.pc t .done
        lock := Option.none
        active := s.active.erase (cfg.jobId t) }

/-- States reachable from `initState` under any interleaving. -/
def Reachable (cfg : TaskCfg) (s : LockState) : Prop :=
  Relation.ReflTransGen (Step cfg) initState s

theorem lock_invariant (cfg : TaskCfg) (s : LockState) (h : Reachable cfg s) :
    ∀ t, s.pc t = .inCS → s.lock = some t := by
  induction h with
  | refl => intro t ht; simp [initState] at ht
  | tail _ hstep ih =>
    cases hstep with
    | enterSkip t2 s2 hpc hmem =>
      intro t ht
      simp only [Function.update_apply] at ht
      by_cases hte : t = t2
      · simp [hte] at ht
      · rw [if_neg hte] at ht
        exact ih t ht
    | enterRun t2 s2 hpc hmem =>
      intro t ht
      simp only [Function.update_apply] at ht
      by_cases hte : t = t2
      · simp [hte] at ht
      · rw [if_neg hte] at ht
        exact ih t ht
    | acquire t2 s2 hpc hlock =>
      intro t ht
      simp only [Function.update_apply] at ht
      by_cases hte : t = t2
      · simp [hte]
      · rw [if_neg hte] at ht
        have := ih t ht
        rw [hlock] at this
        exact absurd this (by simp)
    | acquireBlocked t2 s2 hpc hlock =>
      exact ih
    | mutate t2 s2 hpc =>
      intro t ht
      exact ih t ht
    | finish t2 s2 hpc =>
      intro t ht
      simp only [Function.update_apply] at ht
      by_cases hte : t = t2
      · simp [hte] at ht
      · rw [if_neg hte] at ht
        have h1 := ih t ht
        have h2 := ih t2 hpc
        rw [h1] at h2
        exact absurd (Option.some.inj h2) hte

/-- C9: in the distilled model of `run_transformation_guarded` plus the per-document
advisory lock, under every interleaving of two run requests on the same document, a
request mutating the document's chapters holds the advisory lock, and the two
requests are never both inside the chapter-mutating critical section: the loser
either no-ops at the guarded entry (same job id) or keeps waiting in the lock retry
loop until the winner has finished. -/
theorem C9_single_flight (cfg : TaskCfg) (s : LockState) (h : Reachable cfg s) :
    (∀ t, s.pc t = .inCS → s.lock = some t) ∧
      ¬(s.pc 0 = .inCS ∧ s.pc 1 = .inCS) := by
  refine ⟨lock_invariant cfg s h, ?_⟩
  rintro ⟨h0, h1⟩
  have e0 := lock_invariant cfg s h 0 h0
  have e1 := lock_invariant cfg s h 1 h1
  rw [e0] at e1
  exact absurd (Option.some.inj e1) (by decide)

/-- Witness for C9 at the initial state of two same-document requests. -/
theorem C9_single_flight_witness :
    ¬(initState.pc 0 = Pc.inCS ∧ initState.pc 1 = Pc.inCS) :=
  (C9_single_flight ⟨fun _ => "job-1"⟩ initState Relation.ReflTransGen.refl).2
